import Mathlib

/-!
Verification of the Gomoku (five-in-a-row) engine: a shallow embedding of
`gomoku_engine.cpp` / `gomoku_engine.h` and proofs of the specified
properties of `makeMove`, `undoMove`, `resetGame`, `checkWin`,
`evaluateBoard`, `generateMoves`, `getBestMove` and `alphaBetaPruning`.

The board is a total function from (row, col) coordinates to cell codes
(EMPTY = 0, PLAYER = 1, AI = 2); in the C++ source it is a 15x15
`std::vector` grid, always indexed inside [0,15) by the guarded public
operations, so the functional view is exact on that domain.  The move
history (`std::stack<Move>`) is a list with push = cons.  Loops are
rendered as folds / recursions over the same index ranges, in the same
iteration order.
-/

namespace Gomoku

/-- The board: cell codes indexed by (row, col). `BOARD_SIZE = 15`. -/
def Board : Type := Nat × Nat → Int

/-- `BOARD_SIZE` from the header. -/
def BOARD_SIZE : Nat := 15

/-- `EMPTY` cell code. -/
def EMPTY : Int := 0

/-- `PLAYER` cell code. -/
def PLAYER : Int := 1

/-- `AI` cell code. -/
def AI : Int := 2

/-- `INT_MIN` for a 32-bit int, as used via `<climits>`. -/
def INT_MIN : Int := -2147483648

/-- `INT_MAX` for a 32-bit int. -/
def INT_MAX : Int := 2147483647

/-- The `Move` record pushed on the history stack. -/
structure Move where
  row : Int
  col : Int
  player : Int
deriving DecidableEq, Repr

/-- The `Difficulty` enum: EASY = 1, MEDIUM = 3, HARD = 5. -/
inductive Difficulty where
  | easy
  | medium
  | hard
deriving DecidableEq, Repr

/-- The integer value of a difficulty level (its search depth). -/
def Difficulty.depth : Difficulty → Nat
  | .easy => 1
  | .medium => 3
  | .hard => 5

/-- The engine state: board grid, game-over flag, winner code, difficulty,
and the move-history stack (head = most recent move). -/
structure GomokuEngine where
  board : Board
  gameOver : Bool
  winner : Int
  difficulty : Difficulty
  moveHistory : List Move

/-- `GomokuEngine::isValidPosition`: both coordinates in [0, 15). -/
def isValidPosition (row col : Int) : Prop :=
  0 ≤ row ∧ row < 15 ∧ 0 ≤ col ∧ col < 15

instance (row col : Int) : Decidable (isValidPosition row col) := by
  unfold isValidPosition; infer_instance

/-- The run-counting scan shared by the four direction loops of
`GomokuEngine::checkWin`: walk the listed cells in order keeping a counter
of consecutive cells equal to `player`, reporting success as soon as the
counter reaches 5. -/
def hasRun (player : Int) : List Int → Nat → Bool
  | [], _ => false
  | x :: xs, k =>
    if x = player then
      if 5 ≤ k + 1 then true else hasRun player xs (k + 1)
    else
      hasRun player xs 0

/-- Cells visited by the horizontal loop of `checkWin`:
`c` from `max(0, col-4)` to `min(14, col+4)`, in increasing order. -/
def hScan (row col : Nat) : List (Nat × Nat) :=
  ((List.range 15).filter (fun c => col ≤ c + 4 ∧ c ≤ col + 4)).map (fun c => (row, c))

/-- Cells visited by the vertical loop of `checkWin`. -/
def vScan (row col : Nat) : List (Nat × Nat) :=
  ((List.range 15).filter (fun r => row ≤ r + 4 ∧ r ≤ row + 4)).map (fun r => (r, col))

/-- Cells visited by the main-diagonal loop of `checkWin`: offsets
`i = -4..4`, keeping `(row+i, col+i)` when it is on the board (the C++
loop skips off-board offsets without resetting its counter; the on-board
offsets form a contiguous block, and the scan below replays exactly the
visited cells in order). -/
def dScan (row col : Nat) : List (Nat × Nat) :=
  (List.range 9).filterMap (fun j =>
    let r : Int := row + j - 4
    let c : Int := col + j - 4
    if 0 ≤ r ∧ r < 15 ∧ 0 ≤ c ∧ c < 15 then some (r.toNat, c.toNat) else none)

/-- Cells visited by the anti-diagonal loop of `checkWin`:
offsets `i = -4..4`, cell `(row+i, col-i)` when on the board. -/
def aScan (row col : Nat) : List (Nat × Nat) :=
  (List.range 9).filterMap (fun j =>
    let r : Int := row + j - 4
    let c : Int := col + 4 - j
    if 0 ≤ r ∧ r < 15 ∧ 0 ≤ c ∧ c < 15 then some (r.toNat, c.toNat) else none)

/-- `GomokuEngine::checkWin`: a run of 5 consecutive `player` stones in
one of the four direction scans through `(row, col)`. -/
def checkWin (b : Board) (row col : Nat) (player : Int) : Bool :=
  hasRun player ((hScan row col).map b) 0 ||
  hasRun player ((vScan row col).map b) 0 ||
  hasRun player ((dScan row col).map b) 0 ||
  hasRun player ((aScan row col).map b) 0

/-- `GomokuEngine::resetGame`: all cells EMPTY, not over, no winner,
history cleared; difficulty untouched. -/
def resetGame (e : GomokuEngine) : GomokuEngine :=
  { e with board := fun _ => EMPTY, gameOver := false, winner := EMPTY, moveHistory := [] }

/-- The freshly constructed engine: `resetGame` state with the default
MEDIUM difficulty. -/
def initEngine : GomokuEngine :=
  { board := fun _ => EMPTY, gameOver := false, winner := EMPTY,
    difficulty := .medium, moveHistory := [] }

/-- `GomokuEngine::makeMove`: reject out-of-range coordinates, occupied
cells and finished games; otherwise set the cell, push the move, and run
the win check on the updated board. -/
def makeMove (e : GomokuEngine) (row col player : Int) : GomokuEngine × Bool :=
  if ¬ isValidPosition row col ∨ e.board (row.toNat, col.toNat) ≠ EMPTY ∨ e.gameOver = true then
    (e, false)
  else
    let b := Function.update e.board (row.toNat, col.toNat) player
    let win := checkWin b row.toNat col.toNat player
    ({ e with
        board := b
        moveHistory := ⟨row, col, player⟩ :: e.moveHistory
        gameOver := if win then true else e.gameOver
        winner := if win then player else e.winner }, true)

/-- `GomokuEngine::undoMove`: fail on empty history; otherwise pop up to
two most recent moves, clearing each popped cell, and clear the
game-over state if it was set. -/
def undoMove (e : GomokuEngine) : GomokuEngine × Bool :=
  match e.moveHistory with
  | [] => (e, false)
  | m1 :: rest1 =>
    let b1 := Function.update e.board (m1.row.toNat, m1.col.toNat) EMPTY
    let br :=
      match rest1 with
      | [] => (b1, ([] : List Move))
      | m2 :: rest2 => (Function.update b1 (m2.row.toNat, m2.col.toNat) EMPTY, rest2)
    ({ e with
        board := br.1
        moveHistory := br.2
        gameOver := if e.gameOver then false else e.gameOver
        winner := if e.gameOver then EMPTY else e.winner }, true)

/-- `GomokuEngine::canUndo`. -/
def canUndo (e : GomokuEngine) : Bool :=
  ¬ e.moveHistory = []

/-- `GomokuEngine::hasNeighbors`: some cell of the Moore neighborhood
(the 8 offsets `(dr, dc)` with `dr, dc ∈ {-1,0,1}` minus the center, in
the C++ loop's order) is on the board and occupied. -/
def mooreDeltas : List (Int × Int) :=
  [(-1, -1), (-1, 0), (-1, 1), (0, -1), (0, 1), (1, -1), (1, 0), (1, 1)]

/-- `GomokuEngine::hasNeighbors` itself. -/
def hasNeighbors (b : Board) (row col : Nat) : Bool :=
  mooreDeltas.any (fun d =>
    decide (0 ≤ (row : Int) + d.1 ∧ (row : Int) + d.1 < 15 ∧ 0 ≤ (col : Int) + d.2 ∧
      (col : Int) + d.2 < 15 ∧ b (((row : Int) + d.1).toNat, ((col : Int) + d.2).toNat) ≠ EMPTY))

/-- The row-major enumeration of all board cells (the order of the two
nested loops in `generateMoves`). -/
def rowMajor : List (Nat × Nat) :=
  (List.range 15).flatMap (fun r => (List.range 15).map (fun c => (r, c)))

/-- `GomokuEngine::generateMoves`: empty cells having an occupied Moore
neighbor, in row-major order; if none, all empty cells in row-major
order. -/
def generateMoves (b : Board) : List (Nat × Nat) :=
  let moves := rowMajor.filter (fun p => decide (b p = EMPTY) && hasNeighbors b p.1 p.2)
  if moves = [] then rowMajor.filter (fun p => decide (b p = EMPTY)) else moves

/-- `GomokuEngine::evaluateSequence`: score one 5-cell window from its
AI-stone and player-stone counts. -/
def evaluateSequence (aiCount playerCount : Nat) : Int :=
  if 0 < aiCount ∧ 0 < playerCount then 0
  else if aiCount = 5 then 100000
  else if aiCount = 4 then 10000
  else if aiCount = 3 then 1000
  else if aiCount = 2 then 100
  else if aiCount = 1 then 10
  else if playerCount = 5 then -100000
  else if playerCount = 4 then -10000
  else if playerCount = 3 then -1000
  else if playerCount = 2 then -100
  else if playerCount = 1 then -10
  else 0

/-- The 5 cells of a window: start position plus `i` steps of `(dr, dc)`
for `i = 0..4` (all steps the C++ window loops take are on the board, so
Nat arithmetic with the per-family direction is exact). -/
def windowCells (start : Nat × Nat) (step : Nat × Nat → Nat × Nat) : List (Nat × Nat) :=
  [start, step start, step (step start), step (step (step start)),
    step (step (step (step start)))]

/-- Horizontal step. -/
def stepRight (p : Nat × Nat) : Nat × Nat := (p.1, p.2 + 1)

/-- Vertical step. -/
def stepDown (p : Nat × Nat) : Nat × Nat := (p.1 + 1, p.2)

/-- Main-diagonal step. -/
def stepDiag (p : Nat × Nat) : Nat × Nat := (p.1 + 1, p.2 + 1)

/-- Anti-diagonal step (the C++ loop reads `board[row+i][col-i]` with
`col ≥ 4`, so the Nat subtraction is exact). -/
def stepAnti (p : Nat × Nat) : Nat × Nat := (p.1 + 1, p.2 - 1)

/-- AI-stone count of a window. -/
def aiCountOf (b : Board) (w : List (Nat × Nat)) : Nat :=
  w.countP (fun q => decide (b q = AI))

/-- Player-stone count of a window. -/
def playerCountOf (b : Board) (w : List (Nat × Nat)) : Nat :=
  w.countP (fun q => decide (b q = PLAYER))

/-- Window start cells of the row loops of `evaluateBoard`:
`row = 0..14` outer, `col = 0..10` inner. -/
def rowStarts : List (Nat × Nat) :=
  (List.range 15).flatMap (fun r => (List.range 11).map (fun c => (r, c)))

/-- Window start cells of the column loops: `col = 0..14` outer,
`row = 0..10` inner. -/
def colStarts : List (Nat × Nat) :=
  (List.range 15).flatMap (fun c => (List.range 11).map (fun r => (r, c)))

/-- Window start cells of the main-diagonal loops: `row = 0..10` outer,
`col = 0..10` inner. -/
def diagStarts : List (Nat × Nat) :=
  (List.range 11).flatMap (fun r => (List.range 11).map (fun c => (r, c)))

/-- Window start cells of the anti-diagonal loops: `row = 0..10` outer,
`col = 4..14` inner. -/
def antiStarts : List (Nat × Nat) :=
  (List.range 11).flatMap (fun r => (List.range 11).map (fun c => (r, c + 4)))

/-- One family of window scores accumulated onto `s`, exactly as one of
the four double loops of `evaluateBoard` does. -/
def accumWindows (b : Board) (starts : List (Nat × Nat))
    (step : Nat × Nat → Nat × Nat) (s : Int) : Int :=
  starts.foldl (fun acc st =>
    acc + evaluateSequence (aiCountOf b (windowCells st step))
      (playerCountOf b (windowCells st step))) s

/-- `GomokuEngine::evaluateBoard`: the four double loops run in source
order on one accumulator. -/
def evaluateBoard (b : Board) : Int :=
  accumWindows b antiStarts stepAnti
    (accumWindows b diagStarts stepDiag
      (accumWindows b colStarts stepDown
        (accumWindows b rowStarts stepRight 0)))

/-- The maximizing loop body of `GomokuEngine::alphaBetaPruning`,
threading the mutated board exactly as the C++ does: place AI, evaluate
the child (`f`), restore EMPTY, update `maxEval` and `alpha`, and break
on `beta <= alpha`. -/
def abMaxLoop (f : Board → Int → Int → Board × Int) :
    List (Nat × Nat) → Board → Int → Int → Int → Board × Int
  | [], b, m, _, _ => (b, m)
  | p :: rest, b, m, a, β =>
    let b1 := Function.update b p AI
    let pe := f b1 a β
    let b3 := Function.update pe.1 p EMPTY
    let m' := max m pe.2
    let a' := max a pe.2
    if β ≤ a' then (b3, m') else abMaxLoop f rest b3 m' a' β

/-- The minimizing loop body of `alphaBetaPruning`: place PLAYER,
evaluate, restore, update `minEval` and `beta`, break on
`beta <= alpha`. -/
def abMinLoop (f : Board → Int → Int → Board × Int) :
    List (Nat × Nat) → Board → Int → Int → Int → Board × Int
  | [], b, m, _, _ => (b, m)
  | p :: rest, b, m, a, β =>
    let b1 := Function.update b p PLAYER
    let pe := f b1 a β
    let b3 := Function.update pe.1 p EMPTY
    let m' := min m pe.2
    let β' := min β pe.2
    if β' ≤ a then (b3, m') else abMinLoop f rest b3 m' a β'

/-- `GomokuEngine::alphaBetaPruning` with the board threaded explicitly
(first component of the result: the board as the function leaves it; the
C++ mutates the member grid in place).  `g` is the engine's persistent
`gameOver` flag, which the recursion reads but never writes. -/
def alphaBetaPruning : Nat → Board → Bool → Int → Int → Bool → Board × Int
  | 0, b, _, _, _, _ => (b, evaluateBoard b)
  | d + 1, b, g, a, β, mx =>
    if g then (b, evaluateBoard b)
    else if mx then
      abMaxLoop (fun b' a' β' => alphaBetaPruning d b' g a' β' false)
        (generateMoves b) b INT_MIN a β
    else
      abMinLoop (fun b' a' β' => alphaBetaPruning d b' g a' β' true)
        (generateMoves b) b INT_MAX a β

/-- Pure value of the maximizing alpha-beta loop (child evaluator `f`
takes the move and the current window). -/
def abLoopMax (f : Nat × Nat → Int → Int → Int) :
    List (Nat × Nat) → Int → Int → Int → Int
  | [], m, _, _ => m
  | p :: rest, m, a, β =>
    let e := f p a β
    let m' := max m e
    let a' := max a e
    if β ≤ a' then m' else abLoopMax f rest m' a' β

/-- Pure value of the minimizing alpha-beta loop. -/
def abLoopMin (f : Nat × Nat → Int → Int → Int) :
    List (Nat × Nat) → Int → Int → Int → Int
  | [], m, _, _ => m
  | p :: rest, m, a, β =>
    let e := f p a β
    let m' := min m e
    let β' := min β e
    if β' ≤ a then m' else abLoopMin f rest m' a β'

/-- The value computed by `alphaBetaPruning`, written without board
threading (the board restoration is exact, proved below). -/
def alphaBeta : Nat → Board → Bool → Int → Int → Bool → Int
  | 0, b, _, _, _, _ => evaluateBoard b
  | d + 1, b, g, a, β, mx =>
    if g then evaluateBoard b
    else if mx then
      abLoopMax (fun p a' β' => alphaBeta d (Function.update b p AI) g a' β' false)
        (generateMoves b) INT_MIN a β
    else
      abLoopMin (fun p a' β' => alphaBeta d (Function.update b p PLAYER) g a' β' true)
        (generateMoves b) INT_MAX a β

/-- Modelled from the spec: the same depth-limited search as
`alphaBetaPruning` but exhaustive — no `beta <= alpha` cutoffs — for the
refinement comparison of claim C5. -/
def minimax : Nat → Board → Bool → Bool → Int
  | 0, b, _, _ => evaluateBoard b
  | d + 1, b, g, mx =>
    if g then evaluateBoard b
    else if mx then
      (generateMoves b).foldl
        (fun acc p => max acc (minimax d (Function.update b p AI) g false)) INT_MIN
    else
      (generateMoves b).foldl
        (fun acc p => min acc (minimax d (Function.update b p PLAYER) g true)) INT_MAX

/-- The candidate loop of `GomokuEngine::getBestMove`, threading the
board: place AI, search with the full window, restore, keep the first
strictly-greater score. -/
def gbLoop (d : Nat) (g : Bool) :
    List (Nat × Nat) → Board → Int → Int × Int → Board × (Int × Int)
  | [], b, _, bm => (b, bm)
  | p :: rest, b, best, bm =>
    let b1 := Function.update b p AI
    let pe := alphaBetaPruning d b1 g INT_MIN INT_MAX false
    let b3 := Function.update pe.1 p EMPTY
    if best < pe.2 then gbLoop d g rest b3 pe.2 ((p.1 : Int), (p.2 : Int))
    else gbLoop d g rest b3 best bm

/-- `GomokuEngine::getBestMove`: the center shortcut (taken only when the
move list is empty and the center cell is free), then the candidate loop
starting from `bestScore = INT_MIN`, `bestMove = (-1, -1)`. -/
def getBestMove (e : GomokuEngine) : GomokuEngine × (Int × Int) :=
  let moves := generateMoves e.board
  if moves = [] ∧ e.board (7, 7) = EMPTY then (e, (7, 7))
  else
    let r := gbLoop e.difficulty.depth e.gameOver moves e.board INT_MIN (-1, -1)
    ({ e with board := r.1 }, r.2)

/-- Modelled from the spec: the candidate loop scored by exhaustive
minimax instead of alpha-beta, same order and tie-breaking. -/
def gbLoopMinimax (d : Nat) (g : Bool) (b : Board) :
    List (Nat × Nat) → Int → Int × Int → Int × Int
  | [], _, bm => bm
  | p :: rest, best, bm =>
    let s := minimax d (Function.update b p AI) g false
    if best < s then gbLoopMinimax d g b rest s ((p.1 : Int), (p.2 : Int))
    else gbLoopMinimax d g b rest best bm

/-- Modelled from the spec: `best_move` computed by exhaustive minimax. -/
def getBestMoveMinimax (e : GomokuEngine) : Int × Int :=
  let moves := generateMoves e.board
  if moves = [] ∧ e.board (7, 7) = EMPTY then (7, 7)
  else gbLoopMinimax e.difficulty.depth e.gameOver e.board moves INT_MIN (-1, -1)

/-! ## Board State operations: claims C1, C9, C10 -/

/-- C1: `makeMove` returns false and changes nothing (board, history,
status) iff the coordinates are out of [0,15), the cell is occupied, or
the game is decided; on success it updates exactly the target cell,
pushes exactly one `Move` record, and the status becomes
decided(player) iff `checkWin` reports a win at the placed cell. -/
theorem makeMove_spec (e : GomokuEngine) (row col player : Int) :
    (((makeMove e row col player).2 = false ∧ (makeMove e row col player).1 = e) ↔
      (¬ isValidPosition row col ∨ e.board (row.toNat, col.toNat) ≠ EMPTY ∨
        e.gameOver = true))
    ∧ ((makeMove e row col player).2 = true →
        (makeMove e row col player).1.board
            = Function.update e.board (row.toNat, col.toNat) player
        ∧ (makeMove e row col player).1.moveHistory = ⟨row, col, player⟩ :: e.moveHistory
        ∧ (makeMove e row col player).1.difficulty = e.difficulty
        ∧ (((makeMove e row col player).1.gameOver = true
              ∧ (makeMove e row col player).1.winner = player)
            ↔ checkWin (Function.update e.board (row.toNat, col.toNat) player)
                row.toNat col.toNat player = true)) := by
  by_cases h : ¬ isValidPosition row col ∨ e.board (row.toNat, col.toNat) ≠ EMPTY ∨
      e.gameOver = true
  · simp [makeMove, h]
  · have hg : e.gameOver = false := by
      rcases Bool.eq_false_or_eq_true e.gameOver with hb | hb
      · exact absurd (Or.inr (Or.inr hb)) h
      · exact hb
    constructor
    · simp only [makeMove, if_neg h]
      constructor
      · rintro ⟨hfalse, -⟩
        exact absurd hfalse (by decide)
      · intro hcond
        exact absurd hcond h
    · intro _
      have hv : isValidPosition row col := by
        by_contra hc
        exact h (Or.inl hc)
      have he : e.board (row.toNat, col.toNat) = EMPTY := by
        by_contra hc
        exact h (Or.inr (Or.inl hc))
      by_cases hw : checkWin (Function.update e.board (row.toNat, col.toNat) player)
          row.toNat col.toNat player = true
      · simp [makeMove, hv, he, hg, hw]
      · rw [Bool.not_eq_true] at hw
        simp [makeMove, hv, he, hg, hw]

/-- C1 witness: a concrete successful placement. -/
theorem makeMove_spec_witness :
    (makeMove initEngine 7 7 1).2 = true
    ∧ (makeMove initEngine 7 7 1).1.moveHistory = [⟨7, 7, 1⟩] := by
  refine ⟨by decide, ?_⟩
  have h := ((makeMove_spec initEngine 7 7 1).2 (by decide)).2.1
  simpa [initEngine] using h

/-- C10: `makeMove` performs no validation of the `player` argument:
any integer (including the EMPTY code 0) is accepted on a free in-range
cell of an undecided game, is written to the cell, and is pushed on the
history — so with `player = 0` the history grows while the cell stays
EMPTY. -/
theorem makeMove_any_player (e : GomokuEngine) (row col player : Int)
    (hv : isValidPosition row col)
    (he : e.board (row.toNat, col.toNat) = EMPTY)
    (hg : e.gameOver = false) :
    (makeMove e row col player).2 = true
    ∧ (makeMove e row col player).1.board
        = Function.update e.board (row.toNat, col.toNat) player
    ∧ (makeMove e row col player).1.moveHistory = ⟨row, col, player⟩ :: e.moveHistory
    ∧ (makeMove e row col player).1.board (row.toNat, col.toNat) = player := by
  have h : ¬ (¬ isValidPosition row col ∨ e.board (row.toNat, col.toNat) ≠ EMPTY ∨
      e.gameOver = true) := by
    simp [hv, he, hg]
  simp [makeMove, if_neg h, Function.update_same]

/-- C10 witness: `makeMove` with player code 0 on the fresh engine
succeeds, leaves the cell EMPTY, and still grows the history. -/
theorem makeMove_any_player_witness :
    isValidPosition 3 3 ∧ initEngine.board ((3 : Int).toNat, (3 : Int).toNat) = EMPTY
    ∧ initEngine.gameOver = false
    ∧ (makeMove initEngine 3 3 0).2 = true
    ∧ (makeMove initEngine 3 3 0).1.board ((3 : Int).toNat, (3 : Int).toNat) = EMPTY
    ∧ (makeMove initEngine 3 3 0).1.moveHistory.length = 1 := by
  have h := makeMove_any_player initEngine 3 3 0 (by decide) (by decide) (by decide)
  refine ⟨by decide, by decide, by decide, h.1, ?_, ?_⟩
  · rw [h.2.2.2]
    rfl
  · rw [h.2.2.1]
    decide

/-- C9: `undoMove` fails (and changes nothing) iff the history is empty;
otherwise it succeeds, pops the `min(2, length)` most recent records,
clears exactly the cells those records name, forces the game-over flag
off, and clears the winner exactly when the game was decided. -/
theorem undoMove_spec (e : GomokuEngine) :
    (((undoMove e).2 = false ∧ (undoMove e).1 = e) ↔ e.moveHistory = [])
    ∧ (e.moveHistory ≠ [] →
        (undoMove e).2 = true
        ∧ (undoMove e).1.moveHistory = e.moveHistory.drop 2
        ∧ (undoMove e).1.board
            = (e.moveHistory.take 2).foldl
                (fun b m => Function.update b (m.row.toNat, m.col.toNat) EMPTY) e.board
        ∧ (undoMove e).1.gameOver = false
        ∧ (undoMove e).1.winner = (if e.gameOver then EMPTY else e.winner)
        ∧ (undoMove e).1.difficulty = e.difficulty) := by
  rcases hh : e.moveHistory with - | ⟨m1, rest1⟩
  · simp [undoMove, hh]
  · rcases rest1 with - | ⟨m2, rest2⟩
    · constructor
      · simp [undoMove, hh]
      · intro _
        refine ⟨by simp [undoMove, hh], by simp [undoMove, hh], by simp [undoMove, hh],
          ?_, ?_, by simp [undoMove, hh]⟩
        · rcases Bool.eq_false_or_eq_true e.gameOver with hb | hb <;>
            simp [undoMove, hh, hb]
        · rcases Bool.eq_false_or_eq_true e.gameOver with hb | hb <;>
            simp [undoMove, hh, hb]
    · constructor
      · simp [undoMove, hh]
      · intro _
        refine ⟨by simp [undoMove, hh], by simp [undoMove, hh], by simp [undoMove, hh],
          ?_, ?_, by simp [undoMove, hh]⟩
        · rcases Bool.eq_false_or_eq_true e.gameOver with hb | hb <;>
            simp [undoMove, hh, hb]
        · rcases Bool.eq_false_or_eq_true e.gameOver with hb | hb <;>
            simp [undoMove, hh, hb]

/-- C9 witness: undo after two placements pops both records. -/
theorem undoMove_spec_witness :
    ((makeMove (makeMove initEngine 7 7 1).1 7 8 2).1.moveHistory ≠ [])
    ∧ (undoMove (makeMove (makeMove initEngine 7 7 1).1 7 8 2).1).2 = true
    ∧ (undoMove (makeMove (makeMove initEngine 7 7 1).1 7 8 2).1).1.moveHistory = [] := by
  have h := (undoMove_spec (makeMove (makeMove initEngine 7 7 1).1 7 8 2).1).2 (by decide)
  refine ⟨by decide, h.1, ?_⟩
  rw [h.2.1]
  decide

/-! ## Move Generator: claim C8 -/

/-- Modelled from the spec's words (for the C8 comparison): the cell has
at least one occupied cell among its up-to-8 Moore neighbors, clipped at
the board edges. -/
def specHasNeighbor (b : Board) (row col : Nat) : Prop :=
  ∃ dr dc : Int, dr.natAbs ≤ 1 ∧ dc.natAbs ≤ 1 ∧ ¬(dr = 0 ∧ dc = 0) ∧
    (0 ≤ (row : Int) + dr ∧ (row : Int) + dr < 15 ∧ 0 ≤ (col : Int) + dc ∧
      (col : Int) + dc < 15 ∧ b (((row : Int) + dr).toNat, ((col : Int) + dc).toNat) ≠ EMPTY)

/-- The neighbor loop of the code computes exactly the spec's Moore
neighborhood predicate. -/
theorem hasNeighbors_iff (b : Board) (row col : Nat) :
    hasNeighbors b row col = true ↔ specHasNeighbor b row col := by
  have aux : ∀ d ∈ mooreDeltas,
      d.1.natAbs ≤ 1 ∧ d.2.natAbs ≤ 1 ∧ ¬(d.1 = 0 ∧ d.2 = 0) := by decide
  rw [hasNeighbors, List.any_eq_true]
  constructor
  · rintro ⟨d, hd, hp⟩
    rw [decide_eq_true_eq] at hp
    exact ⟨d.1, d.2, (aux d hd).1, (aux d hd).2.1, (aux d hd).2.2, hp⟩
  · rintro ⟨dr, dc, h1, h2, h3, h⟩
    refine ⟨(dr, dc), ?_, by rw [decide_eq_true_eq]; exact h⟩
    have hdr : dr = -1 ∨ dr = 0 ∨ dr = 1 := by omega
    have hdc : dc = -1 ∨ dc = 0 ∨ dc = 1 := by omega
    rcases hdr with rfl | rfl | rfl <;> rcases hdc with rfl | rfl | rfl
    · decide
    · decide
    · decide
    · decide
    · exact absurd ⟨rfl, rfl⟩ h3
    · decide
    · decide
    · decide
    · decide

instance (b : Board) (row col : Nat) : Decidable (specHasNeighbor b row col) :=
  decidable_of_iff _ (hasNeighbors_iff b row col)

/-- `decide` of the spec predicate agrees with the code's Bool. -/
theorem decide_specHasNeighbor (b : Board) (row col : Nat) :
    decide (specHasNeighbor b row col) = hasNeighbors b row col := by
  by_cases h : specHasNeighbor b row col
  · simp [h, (hasNeighbors_iff b row col).2 h]
  · have hf : hasNeighbors b row col = false := by
      rw [← Bool.not_eq_true]
      exact fun hc => h ((hasNeighbors_iff b row col).1 hc)
    simp [h, hf]

set_option maxRecDepth 8000 in
/-- C8: the candidate list is exactly the row-major enumeration of the
board filtered to the empty cells with an occupied Moore neighbor, or —
when that set is empty — of all empty cells; `rowMajor` enumerates
exactly the board cells, pairwise in row-major (top-to-bottom,
left-to-right) order. -/
theorem generateMoves_spec (b : Board) :
    (∀ p : Nat × Nat, p ∈ rowMajor ↔ p.1 < 15 ∧ p.2 < 15)
    ∧ rowMajor.Pairwise (fun p q => p.1 < q.1 ∨ (p.1 = q.1 ∧ p.2 < q.2))
    ∧ generateMoves b
        = (if ∃ p ∈ rowMajor, b p = EMPTY ∧ specHasNeighbor b p.1 p.2 then
            rowMajor.filter (fun p => decide (b p = EMPTY ∧ specHasNeighbor b p.1 p.2))
          else rowMajor.filter (fun p => decide (b p = EMPTY))) := by
  have hmem : ∀ p : Nat × Nat, p ∈ rowMajor ↔ p.1 < 15 ∧ p.2 < 15 := by
    rintro ⟨r, c⟩
    simp [rowMajor]
  have hfe : rowMajor.filter (fun p => decide (b p = EMPTY) && hasNeighbors b p.1 p.2)
      = rowMajor.filter (fun p => decide (b p = EMPTY ∧ specHasNeighbor b p.1 p.2)) := by
    apply List.filter_congr
    intro p _
    rw [← decide_specHasNeighbor]
    by_cases h1 : b p = EMPTY <;> by_cases h2 : specHasNeighbor b p.1 p.2 <;> simp [h1, h2]
  refine ⟨hmem, by decide, ?_⟩
  by_cases hex : ∃ p ∈ rowMajor, b p = EMPTY ∧ specHasNeighbor b p.1 p.2
  · rw [if_pos hex]
    obtain ⟨p, hp, hp1, hp2⟩ := hex
    have hne : rowMajor.filter (fun p => decide (b p = EMPTY ∧ specHasNeighbor b p.1 p.2)) ≠ [] := by
      intro hnil
      have : p ∈ rowMajor.filter (fun p => decide (b p = EMPTY ∧ specHasNeighbor b p.1 p.2)) := by
        rw [List.mem_filter]
        exact ⟨hp, by simp [hp1, hp2]⟩
      rw [hnil] at this
      exact absurd this (List.not_mem_nil p)
    rw [generateMoves, hfe, if_neg hne]
  · rw [if_neg hex]
    push_neg at hex
    have hnil : rowMajor.filter (fun p => decide (b p = EMPTY ∧ specHasNeighbor b p.1 p.2)) = [] := by
      rw [List.filter_eq_nil_iff]
      intro p hp
      simp only [decide_eq_true_eq, not_and]
      exact fun h1 => hex p hp h1
    rw [generateMoves, hfe, if_pos hnil]

/-! ## Evaluator: claim C3 -/

/-- Modelled from the spec's words (for the C3 comparison): the score of
one 5-cell window from its stone counts — 0 for a dead or empty window,
+10/+100/+1000/+10000/+100000 for exactly 1..5 AI stones and no opponent
stones, the same magnitudes negated for opponent-only windows. -/
def specScore (a p : Nat) : Int :=
  if 0 < a ∧ 0 < p then 0
  else if a = 0 ∧ p = 0 then 0
  else if p = 0 then
    if a = 1 then 10 else if a = 2 then 100 else if a = 3 then 1000
    else if a = 4 then 10000 else if a = 5 then 100000 else 0
  else
    if p = 1 then -10 else if p = 2 then -100 else if p = 3 then -1000
    else if p = 4 then -10000 else if p = 5 then -100000 else 0

/-- Modelled from the spec: the score the spec assigns to a window of
the given board. -/
def specWindowScore (b : Board) (w : List (Nat × Nat)) : Int :=
  specScore (aiCountOf b w) (playerCountOf b w)

/-- Every length-5 window that fits fully on the board, along every row,
every column, and both diagonal directions. -/
def allWindows : List (List (Nat × Nat)) :=
  rowStarts.map (fun st => windowCells st stepRight)
    ++ (colStarts.map (fun st => windowCells st stepDown)
    ++ (diagStarts.map (fun st => windowCells st stepDiag)
    ++ antiStarts.map (fun st => windowCells st stepAnti)))

/-- On counts that can arise from a 5-cell window, the code's
`evaluateSequence` computes exactly the spec's per-window score. -/
theorem evaluateSequence_eq_specScore :
    ∀ a < 6, ∀ p < 6, evaluateSequence a p = specScore a p := by
  decide

/-- C3: `evaluateBoard` is the sum, over every fully-on-board length-5
window along every row, every column, and both diagonal directions, of
the spec's per-window score. -/
theorem evaluateBoard_spec (b : Board) :
    evaluateBoard b = allWindows.foldl (fun s w => s + specWindowScore b w) 0 := by
  have hw : ∀ (step : Nat × Nat → Nat × Nat) (st : Nat × Nat),
      specWindowScore b (windowCells st step)
        = evaluateSequence (aiCountOf b (windowCells st step))
            (playerCountOf b (windowCells st step)) := by
    intro step st
    have ha : aiCountOf b (windowCells st step) < 6 :=
      lt_of_le_of_lt (List.countP_le_length _) (by norm_num [windowCells])
    have hp : playerCountOf b (windowCells st step) < 6 :=
      lt_of_le_of_lt (List.countP_le_length _) (by norm_num [windowCells])
    rw [evaluateSequence_eq_specScore _ ha _ hp, specWindowScore]
  have hfam : ∀ (starts : List (Nat × Nat)) (step : Nat × Nat → Nat × Nat) (s : Int),
      (starts.map (fun st => windowCells st step)).foldl
          (fun s w => s + specWindowScore b w) s
        = accumWindows b starts step s := by
    intro starts step s
    rw [List.foldl_map, accumWindows]
    congr 1
    funext s st
    rw [hw]
  unfold allWindows evaluateBoard
  rw [List.foldl_append, List.foldl_append, List.foldl_append]
  rw [hfam, hfam, hfam, hfam]

/-! ## Win Detector: claim C2 -/

/-- Elements of a shorter `take` are elements of a longer one. -/
theorem mem_take_of_le {α : Type} {m n : Nat} (h : n ≤ m) {l : List α} {x : α}
    (hx : x ∈ l.take n) : x ∈ l.take m := by
  have ht : l.take n = (l.take m).take n := by
    rw [List.take_take, min_eq_left h]
  rw [ht] at hx
  exact List.take_subset _ _ hx

/-- Modelled from the spec: the scanned window contains a run of 5 (or
more) consecutive cells equal to `player`. -/
def windowHasRun (player : Int) (w : List Int) : Prop :=
  ∃ i, i + 5 ≤ w.length ∧ ∀ x ∈ (w.drop i).take 5, x = player

/-- The counting scan of `checkWin`, entered with counter `k < 5`,
succeeds iff either the first `5 - k` cells extend the carried run to 5,
or a fresh run of 5 consecutive `player` cells occurs in the scanned
list. -/
theorem hasRun_iff (p : Int) (l : List Int) :
    ∀ k : Nat, k < 5 →
      (hasRun p l k = true ↔
        ((5 - k ≤ l.length ∧ ∀ x ∈ l.take (5 - k), x = p)
          ∨ ∃ i, i + 5 ≤ l.length ∧ ∀ x ∈ (l.drop i).take 5, x = p)) := by
  induction l with
  | nil =>
    intro k hk
    constructor
    · intro h
      simp [hasRun] at h
    · rintro (⟨h1, -⟩ | ⟨i, hi, -⟩)
      · simp at h1
        omega
      · simp at hi
  | cons x xs ih =>
    intro k hk
    by_cases hx : x = p
    · by_cases hk4 : 5 ≤ k + 1
      · constructor
        · intro _
          left
          have h5k : 5 - k = 1 := by omega
          rw [h5k]
          refine ⟨by simp, ?_⟩
          intro y hy
          rw [show (1 : Nat) = 0 + 1 from rfl, List.take_succ_cons, List.take_zero] at hy
          rw [List.mem_singleton.mp hy]
          exact hx
        · intro _
          simp [hasRun, hx, hk4]
      · have hstep : hasRun p (x :: xs) k = hasRun p xs (k + 1) := by
          simp [hasRun, hx, hk4]
        rw [hstep, ih (k + 1) (by omega)]
        have h5k : 5 - k = (5 - (k + 1)) + 1 := by omega
        constructor
        · rintro (⟨h1, h2⟩ | ⟨i, hi, hall⟩)
          · left
            constructor
            · simp
              omega
            · intro y hy
              rw [h5k, List.take_succ_cons] at hy
              rcases List.mem_cons.mp hy with rfl | hy'
              · exact hx
              · exact h2 y hy'
          · right
            refine ⟨i + 1, by simp; omega, ?_⟩
            intro y hy
            apply hall
            simpa using hy
        · rintro (⟨h1, h2⟩ | ⟨i, hi, hall⟩)
          · left
            constructor
            · simp at h1 ⊢
              omega
            · intro y hy
              apply h2
              rw [h5k, List.take_succ_cons]
              exact List.mem_cons_of_mem _ hy
          · cases i with
            | zero =>
              left
              simp only [List.drop_zero] at hall
              constructor
              · simp at hi ⊢
                omega
              · intro y hy
                apply hall
                have hy4 : y ∈ xs.take 4 := mem_take_of_le (by omega) hy
                rw [show (5 : Nat) = 4 + 1 from rfl, List.take_succ_cons]
                exact List.mem_cons_of_mem _ hy4
            | succ j =>
              right
              refine ⟨j, by simp at hi; omega, ?_⟩
              intro y hy
              apply hall
              simpa using hy
    · have hstep : hasRun p (x :: xs) k = hasRun p xs 0 := by
        simp [hasRun, hx]
      rw [hstep, ih 0 (by norm_num)]
      constructor
      · rintro (⟨h1, h2⟩ | ⟨i, hi, hall⟩)
        · right
          refine ⟨1, by simp at h1 ⊢; omega, ?_⟩
          intro y hy
          apply h2
          simpa using hy
        · right
          refine ⟨i + 1, by simp at hi ⊢; omega, ?_⟩
          intro y hy
          apply hall
          simpa using hy
      · rintro (⟨h1, h2⟩ | ⟨i, hi, hall⟩)
        · exfalso
          apply hx
          apply h2
          rw [show 5 - k = (5 - (k + 1)) + 1 by omega, List.take_succ_cons]
          exact List.mem_cons_self _ _
        · cases i with
          | zero =>
            exfalso
            apply hx
            apply hall
            simp only [List.drop_zero]
            rw [show (5 : Nat) = 4 + 1 from rfl, List.take_succ_cons]
            exact List.mem_cons_self _ _
          | succ j =>
            right
            refine ⟨j, by simp at hi ⊢; omega, ?_⟩
            intro y hy
            apply hall
            simpa using hy

/-- The scan entered with counter 0 (as `checkWin` always does) succeeds
iff the window contains a run of 5 or more `player` cells. -/
theorem hasRun_zero_iff (p : Int) (w : List Int) :
    hasRun p w 0 = true ↔ windowHasRun p w := by
  rw [hasRun_iff p w 0 (by norm_num), windowHasRun]
  constructor
  · rintro (⟨h1, h2⟩ | h)
    · exact ⟨0, by simpa using h1, by simpa using h2⟩
    · exact h
  · exact fun h => Or.inr h

/-- C2: `checkWin` reports a win iff, in at least one of the four
directions, the up-to-9-cell window centered on `(row, col)` (4 cells
each side, clipped at the board edges — the `hScan`/`vScan`/`dScan`/
`aScan` cell lists) contains a run of 5 or more consecutive cells equal
to `player`. -/
theorem checkWin_spec (b : Board) (row col : Nat) (player : Int) :
    checkWin b row col player = true ↔
      (windowHasRun player ((hScan row col).map b)
        ∨ windowHasRun player ((vScan row col).map b)
        ∨ windowHasRun player ((dScan row col).map b)
        ∨ windowHasRun player ((aScan row col).map b)) := by
  rw [checkWin]
  simp only [Bool.or_eq_true, hasRun_zero_iff]
  tauto

/-! ## Backtracking discipline of the search: claim C6 -/

/-- Placing a value on an empty cell and then clearing that cell
restores the board exactly. -/
theorem update_restore {b : Board} {p : Nat × Nat} (h : b p = EMPTY) (v : Int) :
    Function.update (Function.update b p v) p EMPTY = b := by
  rw [Function.update_idem, ← h, Function.update_eq_self]

/-- Every candidate proposed by the move generator is an empty cell. -/
theorem generateMoves_empty_cells (b : Board) : ∀ p ∈ generateMoves b, b p = EMPTY := by
  intro p hp
  simp only [generateMoves] at hp
  split at hp
  · have h := (List.mem_filter.mp hp).2
    simpa using h
  · have h := (List.mem_filter.mp hp).2
    have h' := (Bool.and_eq_true _ _).mp h
    simpa using h'.1

/-- The maximizing loop restores the board it was given and computes the
pure loop value, whenever the child evaluator does. -/
theorem abMaxLoop_eq (fS : Board → Int → Int → Board × Int) (fP : Board → Int → Int → Int)
    (hf : ∀ b' a' β', fS b' a' β' = (b', fP b' a' β')) (b : Board) :
    ∀ l : List (Nat × Nat), (∀ p ∈ l, b p = EMPTY) → ∀ m a β : Int,
      abMaxLoop fS l b m a β
        = (b, abLoopMax (fun p a' β' => fP (Function.update b p AI) a' β') l m a β) := by
  intro l
  induction l with
  | nil => intro _ m a β; rfl
  | cons p rest ih =>
    intro hempty m a β
    have hrestore := update_restore (hempty p (List.mem_cons_self p rest)) AI
    simp only [abMaxLoop, abLoopMax, hf, hrestore]
    by_cases hcut : β ≤ max a (fP (Function.update b p AI) a β)
    · rw [if_pos hcut, if_pos hcut]
    · rw [if_neg hcut, if_neg hcut,
        ih (fun q hq => hempty q (List.mem_cons_of_mem p hq))]

/-- The minimizing loop restores the board it was given and computes the
pure loop value, whenever the child evaluator does. -/
theorem abMinLoop_eq (fS : Board → Int → Int → Board × Int) (fP : Board → Int → Int → Int)
    (hf : ∀ b' a' β', fS b' a' β' = (b', fP b' a' β')) (b : Board) :
    ∀ l : List (Nat × Nat), (∀ p ∈ l, b p = EMPTY) → ∀ m a β : Int,
      abMinLoop fS l b m a β
        = (b, abLoopMin (fun p a' β' => fP (Function.update b p PLAYER) a' β') l m a β) := by
  intro l
  induction l with
  | nil => intro _ m a β; rfl
  | cons p rest ih =>
    intro hempty m a β
    have hrestore := update_restore (hempty p (List.mem_cons_self p rest)) PLAYER
    simp only [abMinLoop, abLoopMin, hf, hrestore]
    by_cases hcut : min β (fP (Function.update b p PLAYER) a β) ≤ a
    · rw [if_pos hcut, if_pos hcut]
    · rw [if_neg hcut, if_neg hcut,
        ih (fun q hq => hempty q (List.mem_cons_of_mem p hq))]

/-- `alphaBetaPruning` returns the board exactly as it found it — also
on early cutoff exits — and its value is the pure `alphaBeta`. -/
theorem alphaBetaPruning_eq :
    ∀ (d : Nat) (b : Board) (g : Bool) (a β : Int) (mx : Bool),
      alphaBetaPruning d b g a β mx = (b, alphaBeta d b g a β mx) := by
  intro d
  induction d with
  | zero => intro b g a β mx; rfl
  | succ d ih =>
    intro b g a β mx
    rcases g with - | -
    · rcases mx with - | -
      · simp only [alphaBetaPruning, alphaBeta, Bool.false_eq_true, if_false]
        exact abMinLoop_eq _ _ (fun b' a' β' => ih b' false a' β' true) b
          (generateMoves b) (generateMoves_empty_cells b) INT_MAX a β
      · simp only [alphaBetaPruning, alphaBeta, Bool.false_eq_true, if_false]
        exact abMaxLoop_eq _ _ (fun b' a' β' => ih b' false a' β' false) b
          (generateMoves b) (generateMoves_empty_cells b) INT_MIN a β
    · simp only [alphaBetaPruning, alphaBeta, if_true]

/-- The candidate loop of `getBestMove` also restores the board. -/
theorem gbLoop_fst (d : Nat) (g : Bool) (b : Board) :
    ∀ l : List (Nat × Nat), (∀ p ∈ l, b p = EMPTY) → ∀ (best : Int) (bm : Int × Int),
      (gbLoop d g l b best bm).1 = b := by
  intro l
  induction l with
  | nil => intro _ best bm; rfl
  | cons p rest ih =>
    intro hempty best bm
    have hrestore := update_restore (hempty p (List.mem_cons_self p rest)) AI
    simp only [gbLoop, alphaBetaPruning_eq, hrestore]
    by_cases hlt : best < alphaBeta d (Function.update b p AI) g INT_MIN INT_MAX false
    · rw [if_pos hlt, ih (fun q hq => hempty q (List.mem_cons_of_mem p hq))]
    · rw [if_neg hlt, ih (fun q hq => hempty q (List.mem_cons_of_mem p hq))]

/-- `getBestMove` returns the engine state unchanged. -/
theorem getBestMove_fst (e : GomokuEngine) : (getBestMove e).1 = e := by
  rw [getBestMove]
  by_cases hif : generateMoves e.board = [] ∧ e.board (7, 7) = EMPTY
  · simp only [if_pos hif]
  · simp only [if_neg hif,
      gbLoop_fst e.difficulty.depth e.gameOver e.board (generateMoves e.board)
        (generateMoves_empty_cells e.board) INT_MIN (-1, -1)]

/-- C6: `getBestMove` leaves the whole engine state — board, history,
game status and difficulty — exactly as it was, and every
`alphaBetaPruning` call (cutoff exits included) leaves the board exactly
as it was. -/
theorem search_frame (e : GomokuEngine) :
    (getBestMove e).1 = e
    ∧ ∀ (d : Nat) (a β : Int) (mx : Bool),
        (alphaBetaPruning d e.board e.gameOver a β mx).1 = e.board := by
  constructor
  · exact getBestMove_fst e
  · intro d a β mx
    rw [alphaBetaPruning_eq]

/-! ## The empty-board opening: claim C4 -/

set_option maxRecDepth 100000 in
/-- C4 (evidence of the code slip): on the fully empty board the move
generator's fallback returns all 225 empty cells, so the candidate list
is never empty and the center shortcut of `getBestMove` — guarded by the
candidate list being empty — cannot fire even though the center cell is
EMPTY. -/
theorem getBestMove_center_shortcut_dead :
    generateMoves (fun _ => EMPTY) ≠ []
    ∧ (generateMoves (fun _ => EMPTY)).length = 225
    ∧ (fun _ => EMPTY : Board) (7, 7) = EMPTY := by
  refine ⟨?_, by decide, by decide⟩
  intro h
  have : (generateMoves (fun _ => EMPTY)).length = 225 := by decide
  rw [h] at this
  simp at this

/-! ## Alpha-beta versus exhaustive minimax: claim C5.
Fold and loop helper lemmas first. -/

/-- A max-fold only grows its accumulator. -/
theorem foldlMax_init_le (g : Nat × Nat → Int) :
    ∀ (l : List (Nat × Nat)) (m : Int),
      m ≤ l.foldl (fun acc p => max acc (g p)) m := by
  intro l
  induction l with
  | nil => intro m; exact le_refl m
  | cons p rest ih =>
    intro m
    exact le_trans (le_max_left m (g p)) (ih (max m (g p)))

/-- A max-fold is monotone in its accumulator. -/
theorem foldlMax_mono (g : Nat × Nat → Int) :
    ∀ (l : List (Nat × Nat)) (m₁ m₂ : Int), m₁ ≤ m₂ →
      l.foldl (fun acc p => max acc (g p)) m₁ ≤ l.foldl (fun acc p => max acc (g p)) m₂ := by
  intro l
  induction l with
  | nil => intro m₁ m₂ h; exact h
  | cons p rest ih =>
    intro m₁ m₂ h
    exact ih _ _ (max_le_max h (le_refl (g p)))

/-- Pulling a max out of the accumulator of a max-fold. -/
theorem foldlMax_max (g : Nat × Nat → Int) :
    ∀ (l : List (Nat × Nat)) (m x : Int),
      l.foldl (fun acc p => max acc (g p)) (max m x)
        = max (l.foldl (fun acc p => max acc (g p)) m) x := by
  intro l
  induction l with
  | nil => intro m x; rfl
  | cons p rest ih =>
    intro m x
    have h : max (max m x) (g p) = max (max m (g p)) x := Max.right_comm m x (g p)
    simp only [List.foldl_cons, h, ih]

/-- A max-fold of bounded values from a bounded accumulator is bounded. -/
theorem foldlMax_le (g : Nat × Nat → Int) (C : Int) :
    ∀ (l : List (Nat × Nat)), (∀ p ∈ l, g p ≤ C) → ∀ m : Int, m ≤ C →
      l.foldl (fun acc p => max acc (g p)) m ≤ C := by
  intro l
  induction l with
  | nil => intro _ m hm; exact hm
  | cons p rest ih =>
    intro hl m hm
    exact ih (fun q hq => hl q (List.mem_cons_of_mem p hq)) _
      (max_le hm (hl p (List.mem_cons_self p rest)))

/-- A min-fold only shrinks its accumulator. -/
theorem foldlMin_le_init (g : Nat × Nat → Int) :
    ∀ (l : List (Nat × Nat)) (m : Int),
      l.foldl (fun acc p => min acc (g p)) m ≤ m := by
  intro l
  induction l with
  | nil => intro m; exact le_refl m
  | cons p rest ih =>
    intro m
    exact le_trans (ih (min m (g p))) (min_le_left m (g p))

/-- A min-fold is monotone in its accumulator. -/
theorem foldlMin_mono (g : Nat × Nat → Int) :
    ∀ (l : List (Nat × Nat)) (m₁ m₂ : Int), m₁ ≤ m₂ →
      l.foldl (fun acc p => min acc (g p)) m₁ ≤ l.foldl (fun acc p => min acc (g p)) m₂ := by
  intro l
  induction l with
  | nil => intro m₁ m₂ h; exact h
  | cons p rest ih =>
    intro m₁ m₂ h
    exact ih _ _ (min_le_min h (le_refl (g p)))

/-- Pulling a min out of the accumulator of a min-fold. -/
theorem foldlMin_min (g : Nat × Nat → Int) :
    ∀ (l : List (Nat × Nat)) (m x : Int),
      l.foldl (fun acc p => min acc (g p)) (min m x)
        = min (l.foldl (fun acc p => min acc (g p)) m) x := by
  intro l
  induction l with
  | nil => intro m x; rfl
  | cons p rest ih =>
    intro m x
    have h : min (min m x) (g p) = min (min m (g p)) x := min_right_comm m x (g p)
    simp only [List.foldl_cons, h, ih]

/-- A min-fold of bounded values from a bounded accumulator is bounded. -/
theorem foldlMin_ge (g : Nat × Nat → Int) (C : Int) :
    ∀ (l : List (Nat × Nat)), (∀ p ∈ l, C ≤ g p) → ∀ m : Int, C ≤ m →
      C ≤ l.foldl (fun acc p => min acc (g p)) m := by
  intro l
  induction l with
  | nil => intro _ m hm; exact hm
  | cons p rest ih =>
    intro hl m hm
    exact ih (fun q hq => hl q (List.mem_cons_of_mem p hq)) _
      (le_min hm (hl p (List.mem_cons_self p rest)))

/-- The pruned max-loop never falls below its accumulator. -/
theorem abLoopMax_ge_init (f : Nat × Nat → Int → Int → Int) :
    ∀ (l : List (Nat × Nat)) (m a β : Int), m ≤ abLoopMax f l m a β := by
  intro l
  induction l with
  | nil => intro m a β; exact le_refl m
  | cons p rest ih =>
    intro m a β
    simp only [abLoopMax]
    by_cases hcut : β ≤ max a (f p a β)
    · rw [if_pos hcut]
      exact le_max_left m (f p a β)
    · rw [if_neg hcut]
      exact le_trans (le_max_left m (f p a β)) (ih _ _ _)

/-- The pruned max-loop of bounded values is bounded above. -/
theorem abLoopMax_le (f : Nat × Nat → Int → Int → Int) (C : Int)
    (hf : ∀ p a β, f p a β ≤ C) :
    ∀ (l : List (Nat × Nat)) (m a β : Int), m ≤ C → abLoopMax f l m a β ≤ C := by
  intro l
  induction l with
  | nil => intro m a β hm; exact hm
  | cons p rest ih =>
    intro m a β hm
    simp only [abLoopMax]
    by_cases hcut : β ≤ max a (f p a β)
    · rw [if_pos hcut]
      exact max_le hm (hf p a β)
    · rw [if_neg hcut]
      exact ih _ _ _ (max_le hm (hf p a β))

/-- The pruned min-loop never exceeds its accumulator. -/
theorem abLoopMin_le_init (f : Nat × Nat → Int → Int → Int) :
    ∀ (l : List (Nat × Nat)) (m a β : Int), abLoopMin f l m a β ≤ m := by
  intro l
  induction l with
  | nil => intro m a β; exact le_refl m
  | cons p rest ih =>
    intro m a β
    simp only [abLoopMin]
    by_cases hcut : min β (f p a β) ≤ a
    · rw [if_pos hcut]
      exact min_le_left m (f p a β)
    · rw [if_neg hcut]
      exact le_trans (ih _ _ _) (min_le_left m (f p a β))

/-- The pruned min-loop of bounded values is bounded below. -/
theorem abLoopMin_ge (f : Nat × Nat → Int → Int → Int) (C : Int)
    (hf : ∀ p a β, C ≤ f p a β) :
    ∀ (l : List (Nat × Nat)) (m a β : Int), C ≤ m → C ≤ abLoopMin f l m a β := by
  intro l
  induction l with
  | nil => intro m a β hm; exact hm
  | cons p rest ih =>
    intro m a β hm
    simp only [abLoopMin]
    by_cases hcut : min β (f p a β) ≤ a
    · rw [if_pos hcut]
      exact le_min hm (hf p a β)
    · rw [if_neg hcut]
      exact ih _ _ _ (le_min hm (hf p a β))

/-- Fail-soft alpha-beta correctness of the maximizing loop
(Knuth-Moore): entered with window `a < β` and accumulator `m ≤ a`, the
pruned loop value `v` and the exhaustive fold value `t` satisfy
`v ≤ a → t ≤ v`, `β ≤ v → v ≤ t`, and `a < v < β → v = t`, provided the
child evaluator is related to its exhaustive value the same way on every
subwindow. -/
theorem abLoopMax_km (f : Nat × Nat → Int → Int → Int) (g : Nat × Nat → Int)
    (hfg : ∀ p a β, INT_MIN ≤ a → β ≤ INT_MAX → a < β →
      (f p a β ≤ a → g p ≤ f p a β)
      ∧ (β ≤ f p a β → f p a β ≤ g p)
      ∧ (a < f p a β → f p a β < β → f p a β = g p)) :
    ∀ (l : List (Nat × Nat)) (m a β : Int),
      INT_MIN ≤ a → β ≤ INT_MAX → a < β → m ≤ a →
      ((abLoopMax f l m a β ≤ a →
          l.foldl (fun acc q => max acc (g q)) m ≤ abLoopMax f l m a β)
      ∧ (β ≤ abLoopMax f l m a β →
          abLoopMax f l m a β ≤ l.foldl (fun acc q => max acc (g q)) m)
      ∧ (a < abLoopMax f l m a β → abLoopMax f l m a β < β →
          abLoopMax f l m a β = l.foldl (fun acc q => max acc (g q)) m)) := by
  intro l
  induction l with
  | nil =>
    intro m a β _ _ _ _
    exact ⟨fun _ => le_refl m, fun _ => le_refl m, fun _ _ => rfl⟩
  | cons p rest ih =>
    intro m a β hIM hAX hab hma
    obtain ⟨hfg1, hfg2, hfg3⟩ := hfg p a β hIM hAX hab
    have hpcons : (p :: rest).foldl (fun acc q => max acc (g q)) m
        = max (rest.foldl (fun acc q => max acc (g q)) m) (g p) := by
      rw [List.foldl_cons]
      exact foldlMax_max g rest m (g p)
    simp only [abLoopMax]
    by_cases hcut : β ≤ max a (f p a β)
    · rw [if_pos hcut]
      have hβe : β ≤ f p a β := by
        by_contra hc
        push_neg at hc
        exact absurd hcut (not_le.mpr (max_lt hab hc))
      have hve : max m (f p a β) = f p a β :=
        max_eq_right (le_trans hma (le_trans hab.le hβe))
      rw [hve]
      refine ⟨?_, ?_, ?_⟩
      · intro hva
        exact absurd (le_trans hβe hva) (not_le.mpr hab)
      · intro _
        rw [hpcons]
        exact le_trans (hfg2 hβe) (le_max_right _ _)
      · intro _ hvβ
        exact absurd hβe (not_le.mpr hvβ)
    · rw [if_neg hcut]
      have hcut' : max a (f p a β) < β := not_le.mp hcut
      have hIM' : INT_MIN ≤ max a (f p a β) := le_trans hIM (le_max_left _ _)
      have hmm' : max m (f p a β) ≤ max a (f p a β) := max_le_max hma (le_refl _)
      obtain ⟨ih1, ih2, ih3⟩ := ih (max m (f p a β)) (max a (f p a β)) β hIM' hAX hcut' hmm'
      by_cases hea : f p a β ≤ a
      · have hmaxa : max a (f p a β) = a := max_eq_left hea
        rw [hmaxa] at ih1 ih2 ih3 ⊢
        have hgp : g p ≤ f p a β := hfg1 hea
        have ht' : rest.foldl (fun acc q => max acc (g q)) (max m (f p a β))
            = max (rest.foldl (fun acc q => max acc (g q)) m) (f p a β) :=
          foldlMax_max g rest m (f p a β)
        refine ⟨?_, ?_, ?_⟩
        · intro hva
          have h1 := ih1 hva
          rw [ht'] at h1
          rw [hpcons]
          exact le_trans (max_le_max (le_refl _) hgp) h1
        · intro hβv
          have h2 := ih2 hβv
          rw [ht'] at h2
          rw [hpcons]
          have hvR : abLoopMax f rest (max m (f p a β)) a β
              ≤ rest.foldl (fun acc q => max acc (g q)) m := by
            rcases max_cases (rest.foldl (fun acc q => max acc (g q)) m) (f p a β) with
              ⟨hm', -⟩ | ⟨hm', -⟩
            · rw [hm'] at h2
              exact h2
            · rw [hm'] at h2
              exact absurd (le_trans h2 hea) (not_le.mpr (lt_of_lt_of_le hab hβv))
          exact le_trans hvR (le_max_left _ _)
        · intro hav hvβ
          have h3 := ih3 hav hvβ
          rw [ht'] at h3
          rw [hpcons]
          rcases max_cases (rest.foldl (fun acc q => max acc (g q)) m) (f p a β) with
            ⟨hm', -⟩ | ⟨hm', hRe⟩
          · rw [hm'] at h3
            have haR : a < rest.foldl (fun acc q => max acc (g q)) m := h3 ▸ hav
            rw [h3]
            exact (max_eq_left (le_trans hgp (le_trans hea haR.le))).symm
          · rw [hm'] at h3
            have : a < f p a β := h3 ▸ hav
            exact absurd this (not_lt.mpr hea)
      · push_neg at hea
        have heβ : f p a β < β := by
          by_contra hc
          push_neg at hc
          exact hcut (le_trans hc (le_max_right _ _))
        have hge : f p a β = g p := hfg3 hea heβ
        have hmaxa : max a (f p a β) = f p a β := max_eq_right hea.le
        have hmaxm : max m (f p a β) = f p a β := max_eq_right (le_trans hma hea.le)
        rw [hmaxa, hmaxm] at ih1 ih2 ih3 ⊢
        have ht' : rest.foldl (fun acc q => max acc (g q)) (f p a β)
            = max (rest.foldl (fun acc q => max acc (g q)) m) (g p) := by
          rw [← hge]
          calc rest.foldl (fun acc q => max acc (g q)) (f p a β)
              = rest.foldl (fun acc q => max acc (g q)) (max m (f p a β)) := by rw [hmaxm]
            _ = max (rest.foldl (fun acc q => max acc (g q)) m) (f p a β) :=
                foldlMax_max g rest m (f p a β)
        refine ⟨?_, ?_, ?_⟩
        · intro hva
          have hvge := abLoopMax_ge_init f rest (f p a β) (f p a β) β
          linarith
        · intro hβv
          have h2 := ih2 hβv
          rw [ht'] at h2
          rw [hpcons]
          exact h2
        · intro hav hvβ
          rw [hpcons, ← ht']
          have hvge := abLoopMax_ge_init f rest (f p a β) (f p a β) β
          by_cases hva' : abLoopMax f rest (f p a β) (f p a β) β ≤ f p a β
          · have h1 := ih1 hva'
            have ht'ge := foldlMax_init_le g rest (f p a β)
            linarith
          · push_neg at hva'
            exact ih3 hva' hvβ

/-- Fail-soft alpha-beta correctness of the minimizing loop
(Knuth-Moore), dual to `abLoopMax_km`; here the accumulator satisfies
`β ≤ m`. -/
theorem abLoopMin_km (f : Nat × Nat → Int → Int → Int) (g : Nat × Nat → Int)
    (hfg : ∀ p a β, INT_MIN ≤ a → β ≤ INT_MAX → a < β →
      (f p a β ≤ a → g p ≤ f p a β)
      ∧ (β ≤ f p a β → f p a β ≤ g p)
      ∧ (a < f p a β → f p a β < β → f p a β = g p)) :
    ∀ (l : List (Nat × Nat)) (m a β : Int),
      INT_MIN ≤ a → β ≤ INT_MAX → a < β → β ≤ m →
      ((abLoopMin f l m a β ≤ a →
          l.foldl (fun acc q => min acc (g q)) m ≤ abLoopMin f l m a β)
      ∧ (β ≤ abLoopMin f l m a β →
          abLoopMin f l m a β ≤ l.foldl (fun acc q => min acc (g q)) m)
      ∧ (a < abLoopMin f l m a β → abLoopMin f l m a β < β →
          abLoopMin f l m a β = l.foldl (fun acc q => min acc (g q)) m)) := by
  intro l
  induction l with
  | nil =>
    intro m a β _ _ _ _
    exact ⟨fun _ => le_refl m, fun _ => le_refl m, fun _ _ => rfl⟩
  | cons p rest ih =>
    intro m a β hIM hAX hab hβm
    obtain ⟨hfg1, hfg2, hfg3⟩ := hfg p a β hIM hAX hab
    have hpcons : (p :: rest).foldl (fun acc q => min acc (g q)) m
        = min (rest.foldl (fun acc q => min acc (g q)) m) (g p) := by
      rw [List.foldl_cons]
      exact foldlMin_min g rest m (g p)
    simp only [abLoopMin]
    by_cases hcut : min β (f p a β) ≤ a
    · rw [if_pos hcut]
      have hea : f p a β ≤ a := by
        by_contra hc
        push_neg at hc
        exact absurd hcut (not_le.mpr (lt_min hab hc))
      have hve : min m (f p a β) = f p a β :=
        min_eq_right (le_trans hea (le_trans hab.le hβm))
      rw [hve]
      refine ⟨?_, ?_, ?_⟩
      · intro _
        rw [hpcons]
        exact le_trans (min_le_right _ _) (hfg1 hea)
      · intro hβv
        exact absurd (le_trans hβv hea) (not_le.mpr hab)
      · intro hav _
        exact absurd hav (not_lt.mpr hea)
    · rw [if_neg hcut]
      have hcut' : a < min β (f p a β) := not_le.mp hcut
      have hAX' : min β (f p a β) ≤ INT_MAX := le_trans (min_le_left _ _) hAX
      have hmm' : min β (f p a β) ≤ min m (f p a β) := min_le_min hβm (le_refl _)
      obtain ⟨ih1, ih2, ih3⟩ := ih (min m (f p a β)) a (min β (f p a β)) hIM hAX' hcut' hmm'
      by_cases hβe : β ≤ f p a β
      · have hminβ : min β (f p a β) = β := min_eq_left hβe
        rw [hminβ] at ih1 ih2 ih3 ⊢
        have hgp : f p a β ≤ g p := hfg2 hβe
        have ht' : rest.foldl (fun acc q => min acc (g q)) (min m (f p a β))
            = min (rest.foldl (fun acc q => min acc (g q)) m) (f p a β) :=
          foldlMin_min g rest m (f p a β)
        refine ⟨?_, ?_, ?_⟩
        · intro hva
          have h1 := ih1 hva
          rw [ht'] at h1
          rw [hpcons]
          have hRv : rest.foldl (fun acc q => min acc (g q)) m
              ≤ abLoopMin f rest (min m (f p a β)) a β := by
            rcases min_cases (rest.foldl (fun acc q => min acc (g q)) m) (f p a β) with
              ⟨hm', -⟩ | ⟨hm', -⟩
            · rw [hm'] at h1
              exact h1
            · rw [hm'] at h1
              exact absurd (le_trans hβe (le_trans h1 hva)) (not_le.mpr hab)
          exact le_trans (min_le_left _ _) hRv
        · intro hβv
          have h2 := ih2 hβv
          rw [ht'] at h2
          rw [hpcons]
          exact le_min (le_trans h2 (min_le_left _ _))
            (le_trans (le_trans h2 (min_le_right _ _)) hgp)
        · intro hav hvβ
          have h3 := ih3 hav hvβ
          rw [ht'] at h3
          rw [hpcons]
          rcases min_cases (rest.foldl (fun acc q => min acc (g q)) m) (f p a β) with
            ⟨hm', -⟩ | ⟨hm', hRe⟩
          · rw [hm'] at h3
            have hRβ : rest.foldl (fun acc q => min acc (g q)) m < β := h3 ▸ hvβ
            rw [h3]
            exact (min_eq_left (le_trans hRβ.le (le_trans hβe hgp))).symm
          · rw [hm'] at h3
            have : f p a β < β := h3 ▸ hvβ
            exact absurd this (not_lt.mpr hβe)
      · push_neg at hβe
        have hae : a < f p a β := by
          by_contra hc
          push_neg at hc
          exact hcut (le_trans (min_le_right _ _) hc)
        have hge : f p a β = g p := hfg3 hae hβe
        have hminβ : min β (f p a β) = f p a β := min_eq_right hβe.le
        have hminm : min m (f p a β) = f p a β := min_eq_right (le_trans hβe.le hβm)
        rw [hminβ, hminm] at ih1 ih2 ih3 ⊢
        have ht' : rest.foldl (fun acc q => min acc (g q)) (f p a β)
            = min (rest.foldl (fun acc q => min acc (g q)) m) (g p) := by
          rw [← hge]
          calc rest.foldl (fun acc q => min acc (g q)) (f p a β)
              = rest.foldl (fun acc q => min acc (g q)) (min m (f p a β)) := by rw [hminm]
            _ = min (rest.foldl (fun acc q => min acc (g q)) m) (f p a β) :=
                foldlMin_min g rest m (f p a β)
        refine ⟨?_, ?_, ?_⟩
        · intro hva
          have h1 := ih1 hva
          rw [ht'] at h1
          rw [hpcons]
          exact h1
        · intro hβv
          have hvle := abLoopMin_le_init f rest (f p a β) a (f p a β)
          linarith
        · intro hav hvβ
          rw [hpcons, ← ht']
          have hvle := abLoopMin_le_init f rest (f p a β) a (f p a β)
          by_cases hva' : f p a β ≤ abLoopMin f rest (f p a β) a (f p a β)
          · have h2 := ih2 hva'
            have ht'le := foldlMin_le_init g rest (f p a β)
            linarith
          · push_neg at hva'
            exact ih3 hav hva'

set_option maxHeartbeats 1000000 in
/-- One window score is within ±100000. -/
theorem evaluateSequence_bound (a p : Nat) :
    -100000 ≤ evaluateSequence a p ∧ evaluateSequence a p ≤ 100000 := by
  unfold evaluateSequence
  split_ifs <;> norm_num

/-- One window family moves the accumulator by at most 100000 per
window. -/
theorem accumWindows_bound (b : Board) (step : Nat × Nat → Nat × Nat) :
    ∀ (starts : List (Nat × Nat)) (s : Int),
      s - 100000 * starts.length ≤ accumWindows b starts step s
      ∧ accumWindows b starts step s ≤ s + 100000 * starts.length := by
  intro starts
  induction starts with
  | nil =>
    intro s
    simp [accumWindows]
  | cons st rest ih =>
    intro s
    have hstep : accumWindows b (st :: rest) step s
        = accumWindows b rest step
            (s + evaluateSequence (aiCountOf b (windowCells st step))
              (playerCountOf b (windowCells st step))) := rfl
    rw [hstep]
    obtain ⟨hl, hr⟩ := ih (s + evaluateSequence (aiCountOf b (windowCells st step))
      (playerCountOf b (windowCells st step)))
    obtain ⟨hsl, hsr⟩ := evaluateSequence_bound (aiCountOf b (windowCells st step))
      (playerCountOf b (windowCells st step))
    have hlen : ((st :: rest).length : Int) = (rest.length : Int) + 1 := by
      simp
    constructor
    · rw [hlen]
      linarith
    · rw [hlen]
      linarith

set_option maxRecDepth 8000 in
/-- The static evaluation is far inside the 32-bit range. -/
theorem evaluateBoard_bound (b : Board) :
    -57200000 ≤ evaluateBoard b ∧ evaluateBoard b ≤ 57200000 := by
  have hr : rowStarts.length = 165 := by decide
  have hc : colStarts.length = 165 := by decide
  have hd : diagStarts.length = 121 := by decide
  have ha : antiStarts.length = 121 := by decide
  obtain ⟨h1l, h1r⟩ := accumWindows_bound b stepRight rowStarts 0
  obtain ⟨h2l, h2r⟩ := accumWindows_bound b stepDown colStarts
    (accumWindows b rowStarts stepRight 0)
  obtain ⟨h3l, h3r⟩ := accumWindows_bound b stepDiag diagStarts
    (accumWindows b colStarts stepDown (accumWindows b rowStarts stepRight 0))
  obtain ⟨h4l, h4r⟩ := accumWindows_bound b stepAnti antiStarts
    (accumWindows b diagStarts stepDiag
      (accumWindows b colStarts stepDown (accumWindows b rowStarts stepRight 0)))
  rw [hr] at h1l h1r
  rw [hc] at h2l h2r
  rw [hd] at h3l h3r
  rw [ha] at h4l h4r
  norm_num at h1l h1r h2l h2r h3l h3r h4l h4r
  unfold evaluateBoard
  constructor <;> linarith

/-- The exhaustive minimax value stays inside [INT_MIN, INT_MAX]. -/
theorem minimax_bound :
    ∀ (d : Nat) (b : Board) (g : Bool) (mx : Bool),
      INT_MIN ≤ minimax d b g mx ∧ minimax d b g mx ≤ INT_MAX := by
  intro d
  induction d with
  | zero =>
    intro b g mx
    have hb := evaluateBoard_bound b
    constructor
    · show (-2147483648 : Int) ≤ evaluateBoard b
      linarith
    · show evaluateBoard b ≤ (2147483647 : Int)
      linarith
  | succ d ih =>
    intro b g mx
    rcases g with - | -
    · rcases mx with - | -
      · simp only [minimax, Bool.false_eq_true, if_false]
        constructor
        · exact foldlMin_ge _ INT_MIN _ (fun p _ => (ih _ false true).1) _ (by decide)
        · exact le_trans (foldlMin_le_init _ _ _) (le_refl INT_MAX)
      · simp only [minimax, Bool.false_eq_true, if_false]
        constructor
        · exact foldlMax_init_le _ _ _
        · exact foldlMax_le _ INT_MAX _ (fun p _ => (ih _ false false).2) _ (by decide)
    · simp only [minimax, if_true]
      have hb := evaluateBoard_bound b
      constructor
      · show (-2147483648 : Int) ≤ evaluateBoard b
        linarith
      · show evaluateBoard b ≤ (2147483647 : Int)
        linarith

/-- The pruned search value stays inside [INT_MIN, INT_MAX]. -/
theorem alphaBeta_bound :
    ∀ (d : Nat) (b : Board) (g : Bool) (a β : Int) (mx : Bool),
      INT_MIN ≤ alphaBeta d b g a β mx ∧ alphaBeta d b g a β mx ≤ INT_MAX := by
  intro d
  induction d with
  | zero =>
    intro b g a β mx
    have hb := evaluateBoard_bound b
    constructor
    · show (-2147483648 : Int) ≤ evaluateBoard b
      linarith
    · show evaluateBoard b ≤ (2147483647 : Int)
      linarith
  | succ d ih =>
    intro b g a β mx
    rcases g with - | -
    · rcases mx with - | -
      · simp only [alphaBeta, Bool.false_eq_true, if_false]
        constructor
        · exact abLoopMin_ge _ INT_MIN (fun p a' β' => (ih _ false a' β' true).1) _ _ _ _
            (by decide)
        · exact le_trans (abLoopMin_le_init _ _ _ _ _) (le_refl INT_MAX)
      · simp only [alphaBeta, Bool.false_eq_true, if_false]
        constructor
        · exact le_trans (le_refl INT_MIN) (abLoopMax_ge_init _ _ _ _ _)
        · exact abLoopMax_le _ INT_MAX (fun p a' β' => (ih _ false a' β' false).2) _ _ _ _
            (by decide)
    · simp only [alphaBeta, if_true]
      have hb := evaluateBoard_bound b
      constructor
      · show (-2147483648 : Int) ≤ evaluateBoard b
        linarith
      · show evaluateBoard b ≤ (2147483647 : Int)
        linarith

/-- Knuth-Moore fail-soft correctness of the whole pruned search against
exhaustive minimax, for any window `INT_MIN ≤ a < β ≤ INT_MAX`. -/
theorem alphaBeta_km :
    ∀ (d : Nat) (b : Board) (g : Bool) (mx : Bool) (a β : Int),
      INT_MIN ≤ a → β ≤ INT_MAX → a < β →
      ((alphaBeta d b g a β mx ≤ a → minimax d b g mx ≤ alphaBeta d b g a β mx)
      ∧ (β ≤ alphaBeta d b g a β mx → alphaBeta d b g a β mx ≤ minimax d b g mx)
      ∧ (a < alphaBeta d b g a β mx → alphaBeta d b g a β mx < β →
          alphaBeta d b g a β mx = minimax d b g mx)) := by
  intro d
  induction d with
  | zero =>
    intro b g mx a β _ _ _
    exact ⟨fun _ => le_of_eq rfl, fun _ => le_of_eq rfl, fun _ _ => rfl⟩
  | succ d ih =>
    intro b g mx a β hIM hAX hab
    rcases g with - | -
    · rcases mx with - | -
      · simp only [alphaBeta, minimax, Bool.false_eq_true, if_false]
        exact abLoopMin_km _ _
          (fun p a' β' h1 h2 h3 => ih (Function.update b p PLAYER) false true a' β' h1 h2 h3)
          (generateMoves b) INT_MAX a β hIM hAX hab hAX
      · simp only [alphaBeta, minimax, Bool.false_eq_true, if_false]
        exact abLoopMax_km _ _
          (fun p a' β' h1 h2 h3 => ih (Function.update b p AI) false false a' β' h1 h2 h3)
          (generateMoves b) INT_MIN a β hIM hAX hab hIM
    · exact ⟨fun _ => le_of_eq rfl, fun _ => le_of_eq rfl, fun _ _ => rfl⟩

/-- With the full (INT_MIN, INT_MAX) window the pruned search computes
the exact exhaustive minimax value. -/
theorem alphaBeta_full_window (d : Nat) (b : Board) (g : Bool) (mx : Bool) :
    alphaBeta d b g INT_MIN INT_MAX mx = minimax d b g mx := by
  have hkm := alphaBeta_km d b g mx INT_MIN INT_MAX (le_refl _) (le_refl _) (by decide)
  have hab := alphaBeta_bound d b g INT_MIN INT_MAX mx
  have hmm := minimax_bound d b g mx
  rcases lt_or_le INT_MIN (alphaBeta d b g INT_MIN INT_MAX mx) with h1 | h1
  · rcases lt_or_le (alphaBeta d b g INT_MIN INT_MAX mx) INT_MAX with h2 | h2
    · exact hkm.2.2 h1 h2
    · exact le_antisymm (hkm.2.1 h2) (le_trans hmm.2 h2)
  · exact le_antisymm (le_trans h1 hmm.1) (hkm.1 h1)

/-- The candidate loop of `getBestMove` restores the board and picks the
same move as the minimax-scored loop. -/
theorem gbLoop_eq (d : Nat) (g : Bool) (b : Board) :
    ∀ l : List (Nat × Nat), (∀ p ∈ l, b p = EMPTY) → ∀ (best : Int) (bm : Int × Int),
      gbLoop d g l b best bm = (b, gbLoopMinimax d g b l best bm) := by
  intro l
  induction l with
  | nil => intro _ best bm; rfl
  | cons p rest ih =>
    intro hempty best bm
    have hrestore := update_restore (hempty p (List.mem_cons_self p rest)) AI
    simp only [gbLoop, gbLoopMinimax, alphaBetaPruning_eq, alphaBeta_full_window, hrestore]
    by_cases hlt : best < minimax d (Function.update b p AI) g false
    · rw [if_pos hlt, if_pos hlt,
        ih (fun q hq => hempty q (List.mem_cons_of_mem p hq))]
    · rw [if_neg hlt, if_neg hlt,
        ih (fun q hq => hempty q (List.mem_cons_of_mem p hq))]

/-- C5: with the full window, `alphaBetaPruning` returns the exact
depth-limited exhaustive minimax value, and `getBestMove` picks exactly
the move the cutoff-free minimax search picks (same candidate order,
same strictly-greater tie-breaking). -/
theorem alphaBeta_eq_minimax :
    (∀ (d : Nat) (b : Board) (g : Bool) (mx : Bool),
        (alphaBetaPruning d b g INT_MIN INT_MAX mx).2 = minimax d b g mx)
    ∧ ∀ e : GomokuEngine, (getBestMove e).2 = getBestMoveMinimax e := by
  constructor
  · intro d b g mx
    rw [alphaBetaPruning_eq]
    exact alphaBeta_full_window d b g mx
  · intro e
    rw [getBestMove, getBestMoveMinimax]
    by_cases hif : generateMoves e.board = [] ∧ e.board (7, 7) = EMPTY
    · simp only [if_pos hif]
    · simp only [if_neg hif,
        gbLoop_eq e.difficulty.depth e.gameOver e.board (generateMoves e.board)
          (generateMoves_empty_cells e.board) INT_MIN (-1, -1)]

/-! ## History-length invariant: claim C7 -/

/-- The public operations of claim C7: `makeMove` with one of the two
player codes, `undoMove`, `resetGame`, `getBestMove`. -/
inductive Op where
  | move (row col : Int) (ai : Bool)
  | undo
  | reset
  | best

/-- Run one public operation (each returns or mutates the engine; the
returned move / success flag is discarded). -/
def applyOp (e : GomokuEngine) : Op → GomokuEngine
  | .move row col ai => (makeMove e row col (if ai then AI else PLAYER)).1
  | .undo => (undoMove e).1
  | .reset => resetGame e
  | .best => (getBestMove e).1

/-- Run a sequence of public operations. -/
def runOps (e : GomokuEngine) : List Op → GomokuEngine
  | [] => e
  | op :: rest => runOps (applyOp e op) rest

/-- The board position a history record names. -/
def posOf (m : Move) : Nat × Nat := (m.row.toNat, m.col.toNat)

/-- The 15×15 grid cells. -/
def gridCells : Finset (Nat × Nat) := Finset.range 15 ×ˢ Finset.range 15

/-- Number of non-EMPTY cells on the board. -/
def countNonEmpty (b : Board) : Nat :=
  (gridCells.filter (fun q => b q ≠ EMPTY)).card

/-- The inductive invariant tying the history to the board: record
positions are distinct in-range cells holding exactly the recorded
(non-EMPTY) player codes, and every occupied grid cell is recorded. -/
def HistInv (e : GomokuEngine) : Prop :=
  (e.moveHistory.map posOf).Nodup
  ∧ (∀ m ∈ e.moveHistory,
      m.row.toNat < 15 ∧ m.col.toNat < 15 ∧ e.board (posOf m) = m.player ∧ m.player ≠ EMPTY)
  ∧ (∀ q : Nat × Nat, q.1 < 15 → q.2 < 15 → e.board q ≠ EMPTY →
      ∃ m ∈ e.moveHistory, posOf m = q)

/-- Under the invariant, the history length counts the occupied cells. -/
theorem histInv_length {e : GomokuEngine} (h : HistInv e) :
    e.moveHistory.length = countNonEmpty e.board := by
  obtain ⟨hnd, hmem, hsurj⟩ := h
  have hset : (e.moveHistory.map posOf).toFinset
      = gridCells.filter (fun q => e.board q ≠ EMPTY) := by
    ext q
    simp only [List.mem_toFinset, List.mem_map, Finset.mem_filter, gridCells,
      Finset.mem_product, Finset.mem_range]
    constructor
    · rintro ⟨m, hm, rfl⟩
      obtain ⟨h1, h2, h3, h4⟩ := hmem m hm
      exact ⟨⟨h1, h2⟩, by rw [h3]; exact h4⟩
    · rintro ⟨⟨h1, h2⟩, h3⟩
      exact hsurj q h1 h2 h3
  have hcard := congrArg Finset.card hset
  rw [List.toFinset_card_of_nodup hnd] at hcard
  calc e.moveHistory.length = (e.moveHistory.map posOf).length :=
        (List.length_map _ _).symm
    _ = countNonEmpty e.board := hcard

/-- The fresh engine satisfies the invariant. -/
theorem histInv_init : HistInv initEngine := by
  refine ⟨List.nodup_nil, ?_, ?_⟩
  · intro m hm
    exact absurd hm (List.not_mem_nil m)
  · intro q _ _ hq
    exact absurd rfl hq

/-- `resetGame` restores the invariant. -/
theorem histInv_reset (e : GomokuEngine) : HistInv (resetGame e) := by
  refine ⟨List.nodup_nil, ?_, ?_⟩
  · intro m hm
    exact absurd hm (List.not_mem_nil m)
  · intro q _ _ hq
    exact absurd rfl hq

/-- `makeMove` with a non-EMPTY player code preserves the invariant. -/
theorem histInv_makeMove {e : GomokuEngine} (h : HistInv e) (row col player : Int)
    (hp : player ≠ EMPTY) : HistInv (makeMove e row col player).1 := by
  by_cases hg : ¬ isValidPosition row col ∨ e.board (row.toNat, col.toNat) ≠ EMPTY ∨
      e.gameOver = true
  · simp only [makeMove, if_pos hg]
    exact h
  · obtain ⟨hnd, hmem, hsurj⟩ := h
    have hg' := hg
    push_neg at hg'
    obtain ⟨hv, hemp, -⟩ := hg'
    obtain ⟨hr0, hr15, hc0, hc15⟩ := hv
    have hnotin : ∀ m ∈ e.moveHistory, posOf m ≠ (row.toNat, col.toNat) := by
      intro m hm hpos
      obtain ⟨-, -, h3, h4⟩ := hmem m hm
      rw [hpos, hemp] at h3
      exact h4 h3.symm
    simp only [makeMove, if_neg hg]
    refine ⟨?_, ?_, ?_⟩
    · show ((Move.mk row col player :: e.moveHistory).map posOf).Nodup
      rw [List.map_cons, List.nodup_cons]
      constructor
      · intro hin
        obtain ⟨m, hm, hpos⟩ := List.mem_map.mp hin
        exact hnotin m hm hpos
      · exact hnd
    · intro m hm
      have hm2 : m ∈ Move.mk row col player :: e.moveHistory := hm
      rcases List.mem_cons.mp hm2 with rfl | hm'
      · refine ⟨?_, ?_, ?_, hp⟩
        · show row.toNat < 15
          omega
        · show col.toNat < 15
          omega
        · show Function.update e.board (row.toNat, col.toNat) player
            (row.toNat, col.toNat) = player
          exact Function.update_same _ _ _
      · obtain ⟨h1, h2, h3, h4⟩ := hmem m hm'
        refine ⟨h1, h2, ?_, h4⟩
        show Function.update e.board (row.toNat, col.toNat) player (posOf m) = m.player
        rw [Function.update_noteq (hnotin m hm')]
        exact h3
    · intro q hq1 hq2 hqne
      have hqne' : Function.update e.board (row.toNat, col.toNat) player q ≠ EMPTY := hqne
      by_cases hqq : q = (row.toNat, col.toNat)
      · refine ⟨⟨row, col, player⟩, List.mem_cons_self _ _, ?_⟩
        rw [hqq]
        rfl
      · rw [Function.update_noteq hqq] at hqne'
        obtain ⟨m, hm, hpos⟩ := hsurj q hq1 hq2 hqne'
        exact ⟨m, List.mem_cons_of_mem _ hm, hpos⟩

/-- `undoMove` preserves the invariant. -/
theorem histInv_undoMove {e : GomokuEngine} (h : HistInv e) : HistInv (undoMove e).1 := by
  obtain ⟨hnd, hmem, hsurj⟩ := h
  rcases he : e.moveHistory with - | ⟨m1, rest1⟩
  · simp only [undoMove, he]
    rw [he] at hnd hmem hsurj
    exact ⟨by rw [he]; exact hnd, by rw [he]; exact hmem, by rw [he]; exact hsurj⟩
  · rcases rest1 with - | ⟨m2, rest⟩
    · simp only [undoMove, he]
      rw [he] at hnd hmem hsurj
      refine ⟨List.nodup_nil, ?_, ?_⟩
      · intro m hm
        exact absurd hm (List.not_mem_nil m)
      · intro q hq1 hq2 hqne
        have hqne' : Function.update e.board (posOf m1) EMPTY q ≠ EMPTY := hqne
        by_cases hq : q = posOf m1
        · rw [hq, Function.update_same] at hqne'
          exact absurd rfl hqne'
        · rw [Function.update_noteq hq] at hqne'
          obtain ⟨m, hm, hpos⟩ := hsurj q hq1 hq2 hqne'
          rw [List.mem_singleton.mp hm] at hpos
          exact absurd hpos.symm hq
    · simp only [undoMove, he]
      rw [he] at hnd hmem hsurj
      rw [List.map_cons, List.map_cons, List.nodup_cons, List.nodup_cons] at hnd
      obtain ⟨h1notin, h2notin, hndrest⟩ := hnd
      have hne1 : ∀ m ∈ rest, posOf m ≠ posOf m1 := by
        intro m hm hpos
        exact h1notin (List.mem_cons.mpr (Or.inr (List.mem_map.mpr ⟨m, hm, hpos⟩)))
      have hne2 : ∀ m ∈ rest, posOf m ≠ posOf m2 := by
        intro m hm hpos
        exact h2notin (List.mem_map.mpr ⟨m, hm, hpos⟩)
      refine ⟨hndrest, ?_, ?_⟩
      · intro m hm
        obtain ⟨h1, h2, h3, h4⟩ := hmem m (List.mem_cons_of_mem m1 (List.mem_cons_of_mem m2 hm))
        refine ⟨h1, h2, ?_, h4⟩
        show Function.update (Function.update e.board (posOf m1) EMPTY) (posOf m2) EMPTY
          (posOf m) = m.player
        rw [Function.update_noteq (hne2 m hm), Function.update_noteq (hne1 m hm)]
        exact h3
      · intro q hq1 hq2 hqne
        have hqne' : Function.update (Function.update e.board (posOf m1) EMPTY)
            (posOf m2) EMPTY q ≠ EMPTY := hqne
        by_cases hq2' : q = posOf m2
        · rw [hq2', Function.update_same] at hqne'
          exact absurd rfl hqne'
        · rw [Function.update_noteq hq2'] at hqne'
          by_cases hq1' : q = posOf m1
          · rw [hq1', Function.update_same] at hqne'
            exact absurd rfl hqne'
          · rw [Function.update_noteq hq1'] at hqne'
            obtain ⟨m, hm, hpos⟩ := hsurj q hq1 hq2 hqne'
            rcases List.mem_cons.mp hm with rfl | hm'
            · exact absurd hpos.symm hq1'
            · rcases List.mem_cons.mp hm' with rfl | hm''
              · exact absurd hpos.symm hq2'
              · exact ⟨m, hm'', hpos⟩

/-- Every public operation preserves the invariant. -/
theorem histInv_applyOp {e : GomokuEngine} (h : HistInv e) (op : Op) :
    HistInv (applyOp e op) := by
  rcases op with ⟨row, col, ai⟩ | - | - | -
  · apply histInv_makeMove h
    rcases ai with - | - <;> decide
  · exact histInv_undoMove h
  · exact histInv_reset e
  · rw [applyOp, getBestMove_fst]
    exact h

/-- The invariant holds after any operation sequence from the fresh
engine. -/
theorem histInv_runOps : ∀ (ops : List Op) (e : GomokuEngine), HistInv e →
    HistInv (runOps e ops) := by
  intro ops
  induction ops with
  | nil => intro e h; exact h
  | cons op rest ih =>
    intro e h
    exact ih (applyOp e op) (histInv_applyOp h op)

/-- C7: starting from the freshly constructed engine, after any sequence
of `makeMove` (with either player code), `undoMove`, `resetGame` and
`getBestMove`, the history length equals the number of non-EMPTY cells
on the board. -/
theorem history_length_eq_stone_count (ops : List Op) :
    (runOps initEngine ops).moveHistory.length
      = countNonEmpty (runOps initEngine ops).board :=
  histInv_length (histInv_runOps ops initEngine histInv_init)

end Gomoku
